import Mathlib

/-!
# Verification of `urwid_ueberzogen/__init__.py`

A shallow embedding of the image-overlay bookkeeping layer:

* `Visibility` models `ueberzug.Visibility` (only the two values the code uses).
* Placements (`ueberzug.lib.v0.Placement` objects) are identified by natural
  numbers; their mutable attributes live in a map `Nat → Placement`.
* `UCanvas` models the urwid canvas tree as traversed by
  `Container.__render_images`: a plain (non-composite) canvas, a
  `urwid.CompositeCanvas` with its `children` list of `(x, y, canvas)`
  entries, or an `Image.Canvas` (a `CompositeCanvas` subclass carrying a
  placement).  Each node carries its `text` content (list of rows).
  The `ltrim` field of an `image` node records the value of the
  `total_ltrim` attribute of `canvas.shards[0][1][0][-1]` at the time the
  traversal reads it (the attribute itself is written by
  `Container._calculate_trims`, modelled separately on the shard
  representation below).
* `renderLoop` is the explicit stack machine of `Container.__render_images`
  (`stack.pop()` pops the Python list's last element; children are appended
  in order, so the last child is popped first — with the head of a Lean
  list as the top of the stack, the pushed children appear reversed).
-/

inductive Visibility : Type where
  | visible
  | invisible
deriving DecidableEq, Repr

/-- Mutable attributes of a `ueberzug` placement object. -/
structure Placement : Type where
  x : Int
  y : Int
  width : Nat
  height : Nat
  visibility : Visibility
deriving DecidableEq, Repr

/-- The urwid canvas tree as seen by `Container.__render_images`:
`text` is a non-composite canvas, `composite` a `urwid.CompositeCanvas`
with its `children` list `(child_x, child_y, child_canvas)`, and `image`
an `Image.Canvas` (placement id, the `total_ltrim` attribute of its first
shard canvas, its text content, and its own children, which the traversal
never descends into). -/
inductive UCanvas : Type where
  | text (content : List (List Char)) : UCanvas
  | composite (content : List (List Char))
      (children : List (Int × Int × UCanvas)) : UCanvas
  | image (pid : Nat) (ltrim : Int) (content : List (List Char))
      (children : List (Int × Int × UCanvas)) : UCanvas

namespace UCanvas

/-- The `text` attribute (list of rows) of a canvas. -/
def content : UCanvas → List (List Char)
  | .text t => t
  | .composite t _ => t
  | .image _ _ t _ => t

/-- `canvas.rows()`. -/
def rowsC (c : UCanvas) : Nat := c.content.length

/-- `canvas.cols()`. -/
def colsC (c : UCanvas) : Nat := (c.content.headD []).length

/-- The placement id carried by an `Image.Canvas`, if any. -/
def placementId : UCanvas → Option Nat
  | .image pid _ _ _ => some pid
  | _ => none

mutual

/-- Number of nodes of a canvas tree. -/
def csize : UCanvas → Nat
  | .text _ => 1
  | .composite _ cs => 1 + csizeList cs
  | .image _ _ _ cs => 1 + csizeList cs

/-- Total number of nodes of the canvases in a children list. -/
def csizeList : List (Int × Int × UCanvas) → Nat
  | [] => 0
  | (_, _, c) :: rest => csize c + csizeList rest

end

theorem csize_pos (c : UCanvas) : 0 < csize c := by
  cases c <;> simp only [csize] <;> omega

theorem csizeList_map_shift (x y : Int) (cs : List (Int × Int × UCanvas)) :
    csizeList (cs.map (fun e => (e.1 + x, e.2.1 + y, e.2.2))) = csizeList cs := by
  induction cs with
  | nil => rfl
  | cons e rest ih => cases e with
    | mk cx r => cases r with
      | mk cy c => simp [csizeList, ih]

theorem csizeList_append (l₁ l₂ : List (Int × Int × UCanvas)) :
    csizeList (l₁ ++ l₂) = csizeList l₁ + csizeList l₂ := by
  induction l₁ with
  | nil => rw [List.nil_append, csizeList]; omega
  | cons e rest ih =>
    obtain ⟨cx, cy, c⟩ := e
    show csizeList ((cx, cy, c) :: (rest ++ l₂)) = _
    rw [csizeList, ih, csizeList]
    omega

theorem csizeList_reverse (l : List (Int × Int × UCanvas)) :
    csizeList l.reverse = csizeList l := by
  induction l with
  | nil => rfl
  | cons e rest ih => cases e with
    | mk cx r => cases r with
      | mk cy c =>
        simp only [List.reverse_cons, csizeList_append, csizeList, ih]
        omega

end UCanvas

open UCanvas

/-- One call of `reavel_image` during the traversal: the placement it is
invoked on and the `x` and `y` arguments passed to it (`reavel_image`
ignores its `width` and `height` arguments: its body only assigns
`placement.x`, `placement.y` and `placement.visibility`). -/
structure RevealEvent : Type where
  pid : Nat
  x : Int
  y : Int
deriving DecidableEq, Repr

/-- Total size of a traversal stack, the termination measure of the loop. -/
def stackSize : List (Int × Int × UCanvas) → Nat
  | [] => 0
  | (_, _, c) :: rest => csize c + stackSize rest

theorem stackSize_eq_csizeList (st : List (Int × Int × UCanvas)) :
    stackSize st = csizeList st := by
  induction st with
  | nil => rfl
  | cons e rest ih => cases e with
    | mk x r => cases r with
      | mk y c => simp [stackSize, csizeList, ih]

/-- The `while stack:` loop of `Container.__render_images`, producing the
sequence of `reavel_image` calls it makes.  Each iteration pops the top of
the stack; an `Image.Canvas` produces a reveal event with
`x = first_shard_canvas.total_ltrim` and `y` the accumulated offset; any
other `CompositeCanvas` pushes its children (appended in order in Python,
hence reversed onto a head-is-top stack) with accumulated offsets
`(child_x + x, child_y + y)`; any other canvas is skipped. -/
def renderLoop : List (Int × Int × UCanvas) → List RevealEvent
  | [] => []
  | (x, y, c) :: rest =>
    match c with
    | .image pid lt _ _ =>
      -- the loop reads x, y but passes `first_shard_canvas.total_ltrim` as x
      ⟨pid, lt, y⟩ :: renderLoop rest
    | .composite _ cs =>
      renderLoop ((cs.map (fun e => (e.1 + x, e.2.1 + y, e.2.2))).reverse ++ rest)
    | .text _ => renderLoop rest
termination_by st => stackSize st
decreasing_by
  all_goals
    simp only [stackSize_eq_csizeList, csizeList, csizeList_append,
      csizeList_reverse, csizeList_map_shift, csize]
  all_goals omega

mutual

/-- Structural description of the traversal: the reveal events produced
below a node reached with accumulated offsets `(x, y)`.  An `Image.Canvas`
yields one event `(pid, ltrim, y)`; a `CompositeCanvas` yields its
children's events in reverse child order (last child first, matching the
LIFO stack); a plain canvas yields none. -/
def treeLeaves (x y : Int) : UCanvas → List RevealEvent
  | .text _ => []
  | .image pid lt _ _ => [⟨pid, lt, y⟩]
  | .composite _ cs => treeLeavesList x y cs

/-- Events of a children list, last child first. -/
def treeLeavesList (x y : Int) : List (Int × Int × UCanvas) → List RevealEvent
  | [] => []
  | (cx, cy, c) :: rest => treeLeavesList x y rest ++ treeLeaves (cx + x) (cy + y) c

end

/-- Per-stack version of `treeLeaves`: the events the loop still produces
from a given stack, top first. -/
def stackSpec : List (Int × Int × UCanvas) → List RevealEvent
  | [] => []
  | (x, y, c) :: rest => treeLeaves x y c ++ stackSpec rest

theorem stackSpec_append (l₁ l₂ : List (Int × Int × UCanvas)) :
    stackSpec (l₁ ++ l₂) = stackSpec l₁ ++ stackSpec l₂ := by
  induction l₁ with
  | nil => simp [stackSpec]
  | cons e rest ih =>
    obtain ⟨x, y, c⟩ := e
    simp [stackSpec, ih]

theorem stackSpec_reverse_map (x y : Int) (cs : List (Int × Int × UCanvas)) :
    stackSpec ((cs.map (fun e => (e.1 + x, e.2.1 + y, e.2.2))).reverse)
      = treeLeavesList x y cs := by
  induction cs with
  | nil => simp [stackSpec, treeLeavesList]
  | cons e rest ih =>
    obtain ⟨cx, cy, c⟩ := e
    simp [List.map_cons, List.reverse_cons, stackSpec_append, ih, stackSpec,
      treeLeavesList]

/-- The stack machine produces exactly the structurally described events. -/
theorem renderLoop_eq_stackSpec (st : List (Int × Int × UCanvas)) :
    renderLoop st = stackSpec st := by
  induction st using renderLoop.induct with
  | case1 => simp [renderLoop, stackSpec]
  | case2 x y rest pid lt t cs ih =>
    simp [renderLoop, stackSpec, treeLeaves, ih]
  | case3 x y rest t cs ih =>
    rw [renderLoop]
    simp only [ih, stackSpec_append, stackSpec_reverse_map, stackSpec, treeLeaves]
  | case4 x y rest t ih =>
    simp [renderLoop, stackSpec, treeLeaves, ih]

/-- The sequence of `reavel_image` calls made by one run of
`Container.__render_images` on root canvas `c`: the stack starts as
`[(0, 0, canvas)]` and the loop only runs when `self._visibility` is
`VISIBLE`. -/
def renderEvents (vis : Visibility) (c : UCanvas) : List RevealEvent :=
  match vis with
  | .visible => renderLoop [(0, 0, c)]
  | .invisible => []

theorem renderEvents_visible (c : UCanvas) :
    renderEvents Visibility.visible c = treeLeaves 0 0 c := by
  simp [renderEvents, renderLoop_eq_stackSpec, stackSpec]

/-- Number of loop iterations (nodes popped) of `Container.__render_images`
from a given stack: same recursion structure as `renderLoop`, counting one
per pop. -/
def renderVisits : List (Int × Int × UCanvas) → Nat
  | [] => 0
  | (x, y, c) :: rest =>
    match c with
    | .image _ _ _ _ => 1 + renderVisits rest
    | .composite _ cs =>
      1 + renderVisits ((cs.map (fun e => (e.1 + x, e.2.1 + y, e.2.2))).reverse ++ rest)
    | .text _ => 1 + renderVisits rest
termination_by st => stackSize st
decreasing_by
  all_goals
    simp only [stackSize_eq_csizeList, csizeList, csizeList_append,
      csizeList_reverse, csizeList_map_shift, csize]
  all_goals omega

mutual

/-- Number of nodes the traversal reaches below a root: every node except
those strictly below an `Image.Canvas` (whose children are never pushed). -/
def exposedCount : UCanvas → Nat
  | .text _ => 1
  | .image _ _ _ _ => 1
  | .composite _ cs => 1 + exposedCountList cs

/-- `exposedCount` summed over a children list. -/
def exposedCountList : List (Int × Int × UCanvas) → Nat
  | [] => 0
  | (_, _, c) :: rest => exposedCount c + exposedCountList rest

end

/-- Sum of `exposedCount` over a stack. -/
def stackExposed : List (Int × Int × UCanvas) → Nat
  | [] => 0
  | (_, _, c) :: rest => exposedCount c + stackExposed rest

theorem stackExposed_append (l₁ l₂ : List (Int × Int × UCanvas)) :
    stackExposed (l₁ ++ l₂) = stackExposed l₁ + stackExposed l₂ := by
  induction l₁ with
  | nil => simp [stackExposed]
  | cons e rest ih =>
    obtain ⟨x, y, c⟩ := e
    simp [stackExposed, ih]
    omega

theorem stackExposed_reverse_map (x y : Int) (cs : List (Int × Int × UCanvas)) :
    stackExposed ((cs.map (fun e => (e.1 + x, e.2.1 + y, e.2.2))).reverse)
      = exposedCountList cs := by
  induction cs with
  | nil => simp [stackExposed, exposedCountList]
  | cons e rest ih =>
    obtain ⟨cx, cy, c⟩ := e
    simp [List.map_cons, List.reverse_cons, stackExposed_append, ih, stackExposed,
      exposedCountList]
    omega

/-- Each run of the loop makes exactly one iteration per exposed node. -/
theorem renderVisits_eq_stackExposed (st : List (Int × Int × UCanvas)) :
    renderVisits st = stackExposed st := by
  induction st using renderVisits.induct with
  | case1 => simp [renderVisits, stackExposed]
  | case2 x y rest pid lt t cs ih =>
    simp [renderVisits, stackExposed, exposedCount, ih]
  | case3 x y rest t cs ih =>
    rw [renderVisits]
    simp only [ih, stackExposed_append, stackExposed_reverse_map, stackExposed,
      exposedCount]
    omega
  | case4 x y rest t ih =>
    simp [renderVisits, stackExposed, exposedCount, ih]

theorem csize_le_csizeList_of_mem {cs : List (Int × Int × UCanvas)}
    {e : Int × Int × UCanvas} (h : e ∈ cs) : csize e.2.2 ≤ csizeList cs := by
  induction cs with
  | nil => cases h
  | cons a rest ih =>
    obtain ⟨ax, ay, ac⟩ := a
    rcases List.mem_cons.mp h with h | h
    · subst h
      show csize ac ≤ _
      simp only [csizeList]
      omega
    · have := ih h
      simp only [csizeList]
      omega

/-- Strong induction over canvas trees by node count; the workhorse for
all structural lemmas about the nested tree type. -/
theorem UCanvas.strong_ind (P : UCanvas → Prop)
    (step : ∀ c : UCanvas, (∀ d : UCanvas, csize d < csize c → P d) → P c) :
    ∀ c, P c := by
  intro c
  have key : ∀ n (c : UCanvas), csize c ≤ n → P c := by
    intro n
    induction n with
    | zero =>
      intro c hc
      have := csize_pos c
      omega
    | succ n ih =>
      intro c hc
      exact step c (fun d hd => ih d (by omega))
  exact key (csize c) c le_rfl

theorem csize_child_lt {cs : List (Int × Int × UCanvas)}
    {e : Int × Int × UCanvas} (t : List (List Char)) (h : e ∈ cs) :
    csize e.2.2 < csize (UCanvas.composite t cs) := by
  have := csize_le_csizeList_of_mem h
  simp only [csize]
  omega

theorem exposedCountList_le_of (cs : List (Int × Int × UCanvas))
    (h : ∀ e ∈ cs, exposedCount e.2.2 ≤ csize e.2.2) :
    exposedCountList cs ≤ csizeList cs := by
  induction cs with
  | nil => simp [exposedCountList, csizeList]
  | cons a rest ih =>
    obtain ⟨ax, ay, ac⟩ := a
    have h₁ : exposedCount ac ≤ csize ac := h (ax, ay, ac) (List.mem_cons_self _ _)
    have h₂ := ih (fun e he => h e (List.mem_cons_of_mem _ he))
    simp only [exposedCountList, csizeList]
    omega

theorem exposedCount_le_csize : ∀ c : UCanvas, exposedCount c ≤ csize c := by
  refine UCanvas.strong_ind _ ?_
  intro c ih
  cases c with
  | text t => simp [exposedCount, csize]
  | image pid lt t cs =>
    simp only [exposedCount, csize]
    omega
  | composite t cs =>
    have h := exposedCountList_le_of cs (fun e he => ih e.2.2 (csize_child_lt t he))
    simp only [exposedCount, csize]
    omega

mutual

/-- Placements of the `Image.Canvas` nodes the traversal reaches: an
`Image.Canvas` contributes its own placement (and is not descended into);
a `CompositeCanvas` contributes its children's placements. -/
def reachablePlacements : UCanvas → Finset Nat
  | .text _ => ∅
  | .image pid _ _ _ => {pid}
  | .composite _ cs => reachableList cs

/-- `reachablePlacements` over a children list. -/
def reachableList : List (Int × Int × UCanvas) → Finset Nat
  | [] => ∅
  | (_, _, c) :: rest => reachablePlacements c ∪ reachableList rest

end

theorem treeLeavesList_pids_of (cs : List (Int × Int × UCanvas))
    (h : ∀ e ∈ cs, ∀ x y : Int,
      ((treeLeaves x y e.2.2).map RevealEvent.pid).toFinset = reachablePlacements e.2.2) :
    ∀ x y : Int,
      ((treeLeavesList x y cs).map RevealEvent.pid).toFinset = reachableList cs := by
  induction cs with
  | nil => intro x y; simp [treeLeavesList, reachableList]
  | cons a rest ih =>
    obtain ⟨ax, ay, ac⟩ := a
    intro x y
    have h₁ : ((treeLeaves (ax + x) (ay + y) ac).map RevealEvent.pid).toFinset
        = reachablePlacements ac := h (ax, ay, ac) (List.mem_cons_self _ _) _ _
    have h₂ := ih (fun e he => h e (List.mem_cons_of_mem _ he)) x y
    rw [treeLeavesList]
    simp only [List.map_append, List.toFinset_append, h₁, h₂, reachableList]
    exact Finset.union_comm _ _

theorem treeLeaves_pids : ∀ c : UCanvas, ∀ x y : Int,
    ((treeLeaves x y c).map RevealEvent.pid).toFinset = reachablePlacements c := by
  refine UCanvas.strong_ind _ ?_
  intro c ih
  cases c with
  | text t => intro x y; simp [treeLeaves, reachablePlacements]
  | image pid lt t cs => intro x y; simp [treeLeaves, reachablePlacements]
  | composite t cs =>
    intro x y
    rw [treeLeaves, reachablePlacements]
    exact treeLeavesList_pids_of cs (fun e he => ih e.2.2 (csize_child_lt t he)) x y

/-! ## The mutable state layer

`Placement` objects are mutable; the whole placement store is a map
`Nat → Placement`.  `ContainerState` holds the `Container`'s own mutable
fields used by the claims: `_visibility`, `_last_visible_placements`, and
whether `_invalidate()` has been called. -/

/-- `placement.x, placement.y = int(x), int(y)` followed by
`placement.visibility = ueberzug.Visibility.VISIBLE` — the body of
`Image.Canvas.reavel_image`. -/
def revealPlacement (pid : Nat) (nx ny : Int) (pst : Nat → Placement) :
    Nat → Placement :=
  Function.update pst pid
    { pst pid with x := nx, y := ny, visibility := Visibility.visible }

/-- The `reavel_image` calls of one traversal, applied in order. -/
def applyReveals (events : List RevealEvent) (pst : Nat → Placement) :
    Nat → Placement :=
  events.foldl (fun s e => revealPlacement e.pid e.x e.y s) pst

/-- `Container.__hide`: set every placement of the set to `INVISIBLE`
(each iteration touches a distinct placement, so the set's iteration order
is irrelevant and the effect is pointwise). -/
def hidePlacements (ps : Finset Nat) (pst : Nat → Placement) :
    Nat → Placement :=
  fun q => if q ∈ ps then { pst q with visibility := Visibility.invisible } else pst q

/-- The mutable fields of a `Container` that the claims mention. -/
structure ContainerState : Type where
  visibility : Visibility
  lastVisible : Finset Nat
  invalidated : Bool
deriving DecidableEq

/-- `visible_placements` as a set at the end of the traversal. -/
def visiblePlacements (vis : Visibility) (c : UCanvas) : Finset Nat :=
  ((renderEvents vis c).map RevealEvent.pid).toFinset

/-- `self._last_visible_placements ^ (self._last_visible_placements &
visible_placements)` — the set passed to `Container.__hide` (`^` is
symmetric difference, `&` intersection). -/
def disappearedPlacements (last visible : Finset Nat) : Finset Nat :=
  symmDiff last (last ∩ visible)

/-- `Container.__render_images`: reveal every reached `Image.Canvas`
placement, hide the placements visible last pass but not reached now, and
store the reached set in `_last_visible_placements`. -/
def renderImages (cst : ContainerState) (pst : Nat → Placement) (c : UCanvas) :
    ContainerState × (Nat → Placement) :=
  let events := renderEvents cst.visibility c
  let visible := (events.map RevealEvent.pid).toFinset
  let pst1 := applyReveals events pst
  let disappeared := disappearedPlacements cst.lastVisible visible
  let pst2 := hidePlacements disappeared pst1
  ({ cst with lastVisible := visible }, pst2)

theorem visiblePlacements_visible (c : UCanvas) :
    visiblePlacements Visibility.visible c = reachablePlacements c := by
  rw [visiblePlacements, renderEvents_visible, treeLeaves_pids]

theorem visiblePlacements_invisible (c : UCanvas) :
    visiblePlacements Visibility.invisible c = ∅ := by
  simp [visiblePlacements, renderEvents]

theorem disappearedPlacements_eq_sdiff (last visible : Finset Nat) :
    disappearedPlacements last visible = last \ visible := by
  rw [disappearedPlacements, symmDiff_def]
  ext p
  simp only [Finset.sup_eq_union, Finset.mem_union, Finset.mem_sdiff,
    Finset.mem_inter]
  tauto

theorem applyReveals_notMem (events : List RevealEvent) (pst : Nat → Placement)
    (p : Nat) (h : p ∉ events.map RevealEvent.pid) :
    applyReveals events pst p = pst p := by
  induction events generalizing pst with
  | nil => rfl
  | cons e rest ih =>
    simp only [List.map_cons, List.mem_cons] at h
    push_neg at h
    rw [applyReveals, List.foldl_cons]
    have := ih (revealPlacement e.pid e.x e.y pst) h.2
    rw [applyReveals] at this
    rw [this, revealPlacement, Function.update_noteq h.1]

theorem applyReveals_mem_visible (events : List RevealEvent) (pst : Nat → Placement)
    (p : Nat) (h : p ∈ events.map RevealEvent.pid) :
    (applyReveals events pst p).visibility = Visibility.visible := by
  induction events generalizing pst with
  | nil => cases h
  | cons e rest ih =>
    rw [applyReveals, List.foldl_cons]
    by_cases hp : p ∈ rest.map RevealEvent.pid
    · exact ih (revealPlacement e.pid e.x e.y pst) hp
    · have hpe : p = e.pid := by
        simp only [List.map_cons, List.mem_cons] at h
        tauto
      have frame := applyReveals_notMem rest (revealPlacement e.pid e.x e.y pst) p hp
      rw [applyReveals] at frame
      rw [frame, hpe, revealPlacement, Function.update_same]

theorem hidePlacements_mem (ps : Finset Nat) (pst : Nat → Placement) (q : Nat)
    (h : q ∈ ps) :
    hidePlacements ps pst q = { pst q with visibility := Visibility.invisible } := by
  simp [hidePlacements, h]

theorem hidePlacements_notMem (ps : Finset Nat) (pst : Nat → Placement) (q : Nat)
    (h : q ∉ ps) : hidePlacements ps pst q = pst q := by
  simp [hidePlacements, h]

/-! ## The widget layer

A widget is modelled by its (pure) `render` function: urwid calls
`render(size, focus)` and gets a canvas.  The repository treats the
wrapped widget as a black box, so this is the right abstraction level. -/

/-- A widget's `render` method: `size` is urwid's size tuple. -/
def Widget : Type := List Nat → Bool → UCanvas

/-- `Image.render`: render the wrapped widget, store the canvas's column
and row counts into `placement.width` / `placement.height`, and return an
`Image.Canvas` wrapping the canvas.  `Image.Canvas.__init__` forwards the
wrapped canvas to `urwid.CompositeCanvas.__init__`, which wraps it as the
single child `(0, 0, canvas)` and keeps its text content; the
`total_ltrim` attribute of its shard canvas is not set at construction
(it is written later by `Container._calculate_trims`), so the model
records `0` there — no claim relates this field to `Image.render`. -/
def imageRender (pid : Nat) (w : Widget) (size : List Nat) (focus : Bool)
    (pst : Nat → Placement) : (Nat → Placement) × UCanvas :=
  let canvas := w size focus
  let pst1 := Function.update pst pid
    { pst pid with width := colsC canvas, height := rowsC canvas }
  (pst1, UCanvas.image pid 0 canvas.content [(0, 0, canvas)])

/-- `Container.hide`: `self.__hide(self._last_visible_placements)`;
the container's own fields are untouched. -/
def containerHide (cst : ContainerState) (pst : Nat → Placement) :
    ContainerState × (Nat → Placement) :=
  (cst, hidePlacements cst.lastVisible pst)

/-- The `Container.visibility` setter: store and `_invalidate()` only when
the value differs (`_invalidate` is modelled as setting a dirty flag).
Placements are untouched: the setter returns the placement store as is. -/
def setVisibility (cst : ContainerState) (pst : Nat → Placement)
    (v : Visibility) : ContainerState × (Nat → Placement) :=
  (if v ≠ cst.visibility
    then { cst with visibility := v, invalidated := true }
    else cst, pst)

/-- `Container.render`: render the wrapped widget, run `_calculate_trims`
(which only writes `total_ltrim` attributes onto shard canvases — in this
model those are the `ltrim` fields the tree already carries), run
`__render_images`, and return the wrapped widget's canvas unchanged. -/
def containerRender (cst : ContainerState) (pst : Nat → Placement)
    (w : Widget) (size : List Nat) (focus : Bool) :
    (ContainerState × (Nat → Placement)) × UCanvas :=
  let canvas := w size focus
  (renderImages cst pst canvas, canvas)

/-! ## `Container._calculate_trims`

The method walks `canvas.shards`, a list of `(rows, shard)` pairs where a
shard is a list of cview tuples; it unpacks each tuple as
`_, _, cview_ltrim, cview_rows, _, cview_canvas` (the three unread slots
are omitted from the model) and performs one
`setattr(cview_canvas, "total_ltrim", value)` per cview.  The model
returns that sequence of assignment events as `(canvas id, value)` pairs. -/

/-- One cview as `_calculate_trims` reads it. -/
structure CView : Type where
  ltrim : Int
  rows : Nat
  cid : Nat
deriving DecidableEq, Repr

/-- The initial `total_row_ltrim` of a shard starting at `currRow`: the sum
of the recorded `(start_row, end_row, trim_amt)` entries with
`start_row <= curr_row < end_row`. -/
def trimSum (ltrims : List (Nat × Nat × Int)) (currRow : Nat) : Int :=
  ((ltrims.filter (fun e => decide (e.1 ≤ currRow ∧ currRow < e.2.1))).map
    (fun e => e.2.2)).sum

/-- The inner `for idx, cview_info in enumerate(shard)` loop: each cview
canvas is assigned the running total, which then grows by the cview's
left trim. -/
def cviewAssigns (total : Int) : List CView → List (Nat × Int)
  | [] => []
  | cv :: rest => (cv.cid, total) :: cviewAssigns (total + cv.ltrim) rest

/-- The `ltrims` entries recorded for a list of shards whose first shard
starts at `currRow`: one `(start_row, start_row + first_cview_rows,
first_cview_ltrim)` entry per non-empty shard (`idx == 0`). -/
def ltrimEntries (currRow : Nat) : List (Nat × List CView) → List (Nat × Nat × Int)
  | [] => []
  | (rows, shard) :: rest =>
    (match shard with
      | [] => []
      | cv :: _ => [(currRow, currRow + cv.rows, cv.ltrim)]) ++
      ltrimEntries (currRow + rows) rest

/-- The outer `for rows, shard in canvas.shards` loop, carrying `curr_row`
and the `ltrims` record.  In the Python code the entry for a shard's first
cview is appended in the middle of the shard's own cview loop, but `ltrims`
is only consulted at the start of each shard, so recording it before
recursing is the same computation. -/
def calcLoop (currRow : Nat) (ltrims : List (Nat × Nat × Int)) :
    List (Nat × List CView) → List (Nat × Int)
  | [] => []
  | (rows, shard) :: rest =>
    cviewAssigns (trimSum ltrims currRow) shard ++
      calcLoop (currRow + rows) (ltrims ++ ltrimEntries currRow [(rows, shard)]) rest

/-- `Container._calculate_trims(canvas)`: `curr_row` starts at 1 and
`ltrims` empty; the result is the sequence of `total_ltrim` assignments. -/
def calculateTrims (shards : List (Nat × List CView)) : List (Nat × Int) :=
  calcLoop 1 [] shards

/-- 1-based starting row of shard `k`: one plus the rows of the shards
before it. -/
def shardStartRow (shards : List (Nat × List CView)) (k : Nat) : Nat :=
  1 + ((shards.take k).map (fun s => s.1)).sum

/-- Sum of the left trims of the cviews preceding index `idx` in a shard. -/
def prefixLtrim (shard : List CView) (idx : Nat) : Int :=
  ((shard.take idx).map (fun cv => cv.ltrim)).sum

theorem prefixLtrim_zero (shard : List CView) : prefixLtrim shard 0 = 0 := rfl

theorem prefixLtrim_cons (cv : CView) (rest : List CView) (idx : Nat) :
    prefixLtrim (cv :: rest) (idx + 1) = cv.ltrim + prefixLtrim rest idx := by
  simp [prefixLtrim, List.take_succ_cons]

/-- The inner loop assigns to the cview at index `idx` the base total plus
the left trims of the cviews before it. -/
theorem cviewAssigns_spec (shard : List CView) : ∀ total : Int,
    cviewAssigns total shard = (List.range shard.length).flatMap (fun idx =>
      match shard.get? idx with
      | none => []
      | some cv => [(cv.cid, total + prefixLtrim shard idx)]) := by
  induction shard with
  | nil => intro total; simp [cviewAssigns]
  | cons cv rest ih =>
    intro total
    rw [List.length_cons, List.range_succ_eq_map, List.flatMap_cons, List.flatMap_map]
    rw [cviewAssigns, ih (total + cv.ltrim)]
    simp only [List.get?_cons_succ, List.get?_cons_zero, prefixLtrim_cons,
      prefixLtrim_zero, add_zero, add_assoc]
    rfl

theorem ltrimEntries_cons (curr rows : Nat) (shard : List CView)
    (rest : List (Nat × List CView)) :
    ltrimEntries curr ((rows, shard) :: rest) =
      ltrimEntries curr [(rows, shard)] ++ ltrimEntries (curr + rows) rest := by
  cases shard <;> simp [ltrimEntries]

/-- The outer loop, for any starting row and any already-recorded entries:
shard `k` of the remaining list gets base total
`trimSum (recorded entries of earlier shards) (its starting row)`. -/
theorem calcLoop_spec (shards : List (Nat × List CView)) :
    ∀ (curr : Nat) (es : List (Nat × Nat × Int)),
    calcLoop curr es shards = (List.range shards.length).flatMap (fun k =>
      match shards.get? k with
      | none => []
      | some s =>
        cviewAssigns
          (trimSum (es ++ ltrimEntries curr (shards.take k))
            (curr + ((shards.take k).map (fun s => s.1)).sum))
          s.2) := by
  induction shards with
  | nil => intro curr es; simp [calcLoop]
  | cons s rest ih =>
    obtain ⟨rows, shard⟩ := s
    intro curr es
    rw [List.length_cons, List.range_succ_eq_map, List.flatMap_cons, List.flatMap_map]
    rw [calcLoop, ih (curr + rows) (es ++ ltrimEntries curr [(rows, shard)])]
    simp only [List.get?_cons_succ, List.get?_cons_zero, List.take_succ_cons,
      List.take_zero, ltrimEntries_cons, ltrimEntries, List.map_cons, List.map_nil,
      List.sum_cons, List.sum_nil, List.append_nil, List.append_assoc,
      Nat.add_assoc, Nat.add_zero]

/-! ## Effect lemmas for `__render_images` -/

theorem renderImages_snd (cst : ContainerState) (pst : Nat → Placement)
    (c : UCanvas) :
    (renderImages cst pst c).2 =
      hidePlacements
        (disappearedPlacements cst.lastVisible (visiblePlacements cst.visibility c))
        (applyReveals (renderEvents cst.visibility c) pst) := rfl

theorem renderImages_lastVisible (cst : ContainerState) (pst : Nat → Placement)
    (c : UCanvas) :
    (renderImages cst pst c).1.lastVisible = visiblePlacements cst.visibility c := rfl

theorem renderImages_visibility (cst : ContainerState) (pst : Nat → Placement)
    (c : UCanvas) :
    (renderImages cst pst c).1.visibility = cst.visibility := rfl

/-- A placement reached on this pass ends up `VISIBLE`: it is revealed by
the traversal and is not in the hidden set (which is disjoint from the
reached set). -/
theorem renderImages_reached_visible (cst : ContainerState) (pst : Nat → Placement)
    (c : UCanvas) (p : Nat) (h : p ∈ visiblePlacements cst.visibility c) :
    ((renderImages cst pst c).2 p).visibility = Visibility.visible := by
  rw [renderImages_snd]
  have hd : p ∉ disappearedPlacements cst.lastVisible (visiblePlacements cst.visibility c) := by
    rw [disappearedPlacements_eq_sdiff, Finset.mem_sdiff]
    tauto
  rw [hidePlacements_notMem _ _ _ hd]
  exact applyReveals_mem_visible _ _ _ (List.mem_toFinset.mp h)

/-- A placement in the hidden set ends up `INVISIBLE`. -/
theorem renderImages_disappeared_invisible (cst : ContainerState)
    (pst : Nat → Placement) (c : UCanvas) (p : Nat)
    (h : p ∈ disappearedPlacements cst.lastVisible (visiblePlacements cst.visibility c)) :
    ((renderImages cst pst c).2 p).visibility = Visibility.invisible := by
  rw [renderImages_snd, hidePlacements_mem _ _ _ h]

/-- A placement neither reached nor hidden is untouched. -/
theorem renderImages_frame (cst : ContainerState) (pst : Nat → Placement)
    (c : UCanvas) (p : Nat)
    (hv : p ∉ visiblePlacements cst.visibility c)
    (hd : p ∉ disappearedPlacements cst.lastVisible (visiblePlacements cst.visibility c)) :
    (renderImages cst pst c).2 p = pst p := by
  rw [renderImages_snd, hidePlacements_notMem _ _ _ hd]
  exact applyReveals_notMem _ _ _ (fun hm => hv (List.mem_toFinset.mpr hm))

mutual

/-- Stated from claim C1's words, for comparison with the code's
`treeLeaves`: the claimed reveal events position every reached
`Image.Canvas` leaf at the accumulated child-offset sums in both
coordinates (`x` as well as `y`). -/
def claimedLeaves (x y : Int) : UCanvas → List RevealEvent
  | .text _ => []
  | .image pid _ _ _ => [⟨pid, x, y⟩]
  | .composite _ cs => claimedLeavesList x y cs

/-- `claimedLeaves` over a children list, last child first. -/
def claimedLeavesList (x y : Int) : List (Int × Int × UCanvas) → List RevealEvent
  | [] => []
  | (cx, cy, c) :: rest =>
    claimedLeavesList x y rest ++ claimedLeaves (cx + x) (cy + y) c

end

/-- A concrete placement store for witnesses. -/
def defaultPst : Nat → Placement :=
  fun _ => ⟨0, 0, 0, 0, Visibility.invisible⟩

/-! ## Claims -/

/-- **C1** (as frozen, refuted): the claim says both the `x` and the `y`
passed to `reavel_image` are the accumulated child-offset sums.  On the
root composite with a single child at x-offset 5 holding an `Image.Canvas`
whose first shard canvas carries `total_ltrim = 0`, the claim demands
`x = 5`, but the code passes `x = first_shard_canvas.total_ltrim = 0`
(the accumulated x is computed and discarded). -/
theorem render_positions_claimed_offsets_counterexample :
    renderEvents Visibility.visible
        (UCanvas.composite [] [(5, 0, UCanvas.image 7 0 [] [])]) = [⟨7, 0, 0⟩] ∧
    claimedLeaves 0 0
        (UCanvas.composite [] [(5, 0, UCanvas.image 7 0 [] [])]) = [⟨7, 5, 0⟩] ∧
    renderEvents Visibility.visible
        (UCanvas.composite [] [(5, 0, UCanvas.image 7 0 [] [])]) ≠
      claimedLeaves 0 0 (UCanvas.composite [] [(5, 0, UCanvas.image 7 0 [] [])]) := by
  have h1 : renderEvents Visibility.visible
      (UCanvas.composite [] [(5, 0, UCanvas.image 7 0 [] [])]) = [⟨7, 0, 0⟩] := by
    rw [renderEvents_visible]
    simp [treeLeaves, treeLeavesList]
  have h2 : claimedLeaves 0 0
      (UCanvas.composite [] [(5, 0, UCanvas.image 7 0 [] [])]) = [⟨7, 5, 0⟩] := by
    simp [claimedLeaves, claimedLeavesList]
  refine ⟨h1, h2, ?_⟩
  rw [h1, h2]
  decide

/-- **C1** (amended): on a visible render every `Image.Canvas` leaf reached
by the traversal is revealed with `y` equal to the sum of the child
y-offsets accumulated along the path of `CompositeCanvas` children from the
root, but with `x` equal to the `total_ltrim` attribute of the leaf's first
shard canvas, not the accumulated x-offset sum: the reveal events are
exactly `treeLeaves 0 0 c`, the structural recursion that accumulates both
offsets and emits `(placement, leaf ltrim, accumulated y)`. -/
theorem render_positions_ltrim_x_offset_y (c : UCanvas) :
    renderEvents Visibility.visible c = treeLeaves 0 0 c :=
  renderEvents_visible c

/-- **C2**: on every render, the set passed to `Container.__hide` equals
(previous visible set) minus (placements reached on this pass); every
placement in it ends the render `INVISIBLE`, and every placement reached
on this pass ends the render `VISIBLE` (so none of them is hidden). -/
theorem render_hides_exactly_disappeared (cst : ContainerState)
    (pst : Nat → Placement) (w : Widget) (size : List Nat) (focus : Bool) :
    disappearedPlacements cst.lastVisible
        (visiblePlacements cst.visibility (w size focus))
      = cst.lastVisible \ visiblePlacements cst.visibility (w size focus) ∧
    (∀ p ∈ disappearedPlacements cst.lastVisible
        (visiblePlacements cst.visibility (w size focus)),
      ((containerRender cst pst w size focus).1.2 p).visibility
        = Visibility.invisible) ∧
    (∀ p ∈ visiblePlacements cst.visibility (w size focus),
      ((containerRender cst pst w size focus).1.2 p).visibility
        = Visibility.visible) :=
  ⟨disappearedPlacements_eq_sdiff _ _,
   fun p hp => renderImages_disappeared_invisible cst pst (w size focus) p hp,
   fun p hp => renderImages_reached_visible cst pst (w size focus) p hp⟩

/-- Witness for C2 at a concrete render: previous visible set `{2}`, root
canvas an `Image.Canvas` with placement 7; placement 2 disappears (set
`INVISIBLE`), placement 7 is reached (set `VISIBLE`). -/
theorem render_hides_exactly_disappeared_witness :
    ((containerRender ⟨Visibility.visible, {2}, false⟩ defaultPst
        (fun _ _ => UCanvas.image 7 0 [] []) [] false).1.2 2).visibility
      = Visibility.invisible ∧
    ((containerRender ⟨Visibility.visible, {2}, false⟩ defaultPst
        (fun _ _ => UCanvas.image 7 0 [] []) [] false).1.2 7).visibility
      = Visibility.visible := by
  have hv : visiblePlacements Visibility.visible (UCanvas.image 7 0 [] []) = {7} := by
    rw [visiblePlacements_visible]
    simp [reachablePlacements]
  constructor
  · refine (render_hides_exactly_disappeared ⟨Visibility.visible, {2}, false⟩
      defaultPst (fun _ _ => UCanvas.image 7 0 [] []) [] false).2.1 2 ?_
    show 2 ∈ disappearedPlacements {2}
      (visiblePlacements Visibility.visible (UCanvas.image 7 0 [] []))
    rw [disappearedPlacements_eq_sdiff, hv]
    decide
  · refine (render_hides_exactly_disappeared ⟨Visibility.visible, {2}, false⟩
      defaultPst (fun _ _ => UCanvas.image 7 0 [] []) [] false).2.2 7 ?_
    show 7 ∈ visiblePlacements Visibility.visible (UCanvas.image 7 0 [] [])
    rw [hv]
    decide

/-- **C3**: after `Container.render`, `_last_visible_placements` equals the
set of placements of the `Image.Canvas` nodes the traversal reaches through
`CompositeCanvas` children (an `Image.Canvas` is itself terminal: the
traversal does not descend into it) when the container is `VISIBLE`, and
the empty set when `INVISIBLE` — in which case every placement visible on
the previous pass has been set `INVISIBLE`; every placement in the stored
set has been set `VISIBLE` on this pass. -/
theorem render_last_visible_invariant (cst : ContainerState)
    (pst : Nat → Placement) (w : Widget) (size : List Nat) (focus : Bool) :
    (cst.visibility = Visibility.visible →
      (containerRender cst pst w size focus).1.1.lastVisible
        = reachablePlacements (w size focus)) ∧
    (cst.visibility = Visibility.invisible →
      (containerRender cst pst w size focus).1.1.lastVisible = ∅ ∧
      ∀ p ∈ cst.lastVisible,
        ((containerRender cst pst w size focus).1.2 p).visibility
          = Visibility.invisible) ∧
    (∀ p ∈ (containerRender cst pst w size focus).1.1.lastVisible,
      ((containerRender cst pst w size focus).1.2 p).visibility
        = Visibility.visible) := by
  refine ⟨?_, ?_, ?_⟩
  · intro h
    show visiblePlacements cst.visibility (w size focus) = _
    rw [h, visiblePlacements_visible]
  · intro h
    constructor
    · show visiblePlacements cst.visibility (w size focus) = _
      rw [h, visiblePlacements_invisible]
    · intro p hp
      refine renderImages_disappeared_invisible cst pst (w size focus) p ?_
      rw [disappearedPlacements_eq_sdiff, h, visiblePlacements_invisible,
        Finset.sdiff_empty]
      exact hp
  · intro p hp
    exact renderImages_reached_visible cst pst (w size focus) p hp

/-- Witness for C3: a visible container stores exactly the reached
placement `{3}` and reveals it; an invisible container with previous set
`{4}` stores `∅` and hides placement 4. -/
theorem render_last_visible_invariant_witness :
    (containerRender ⟨Visibility.visible, ∅, false⟩ defaultPst
        (fun _ _ => UCanvas.image 3 0 [] []) [] false).1.1.lastVisible
      = reachablePlacements (UCanvas.image 3 0 [] []) ∧
    ((containerRender ⟨Visibility.visible, ∅, false⟩ defaultPst
        (fun _ _ => UCanvas.image 3 0 [] []) [] false).1.2 3).visibility
      = Visibility.visible ∧
    (containerRender ⟨Visibility.invisible, {4}, false⟩ defaultPst
        (fun _ _ => UCanvas.image 3 0 [] []) [] false).1.1.lastVisible = ∅ ∧
    ((containerRender ⟨Visibility.invisible, {4}, false⟩ defaultPst
        (fun _ _ => UCanvas.image 3 0 [] []) [] false).1.2 4).visibility
      = Visibility.invisible := by
  have h34 := render_last_visible_invariant ⟨Visibility.invisible, {4}, false⟩
    defaultPst (fun _ _ => UCanvas.image 3 0 [] []) [] false
  have h12 := render_last_visible_invariant ⟨Visibility.visible, ∅, false⟩
    defaultPst (fun _ _ => UCanvas.image 3 0 [] []) [] false
  refine ⟨h12.1 rfl, ?_, (h34.2.1 rfl).1, (h34.2.1 rfl).2 4 (by decide)⟩
  refine h12.2.2 3 ?_
  show 3 ∈ visiblePlacements Visibility.visible (UCanvas.image 3 0 [] [])
  rw [visiblePlacements_visible]
  simp [reachablePlacements]

/-- **C4**: `_calculate_trims` assigns every cview canvas of every shard a
`total_ltrim` equal to the sum of the left trims recorded for the first
cviews of earlier shards whose row interval `[start_row, end_row)` contains
the current shard's starting row, plus the left trims of the cviews that
precede it within its own shard. -/
theorem calculateTrims_assigns_claimed_totals (shards : List (Nat × List CView)) :
    calculateTrims shards = (List.range shards.length).flatMap (fun k =>
      match shards.get? k with
      | none => []
      | some s =>
        (List.range s.2.length).flatMap (fun idx =>
          match s.2.get? idx with
          | none => []
          | some cv => [(cv.cid,
              trimSum (ltrimEntries 1 (shards.take k)) (shardStartRow shards k)
                + prefixLtrim s.2 idx)])) := by
  rw [calculateTrims, calcLoop_spec]
  simp only [List.nil_append, shardStartRow, cviewAssigns_spec]

/-- **C5**: after `Image.render`, `placement.width`/`placement.height`
equal the wrapped widget's canvas's `cols()`/`rows()`, and the returned
`Image.Canvas` carries that same placement. -/
theorem image_render_tracks_size (pid : Nat) (w : Widget) (size : List Nat)
    (focus : Bool) (pst : Nat → Placement) :
    ((imageRender pid w size focus pst).1 pid).width = colsC (w size focus) ∧
    ((imageRender pid w size focus pst).1 pid).height = rowsC (w size focus) ∧
    ((imageRender pid w size focus pst).2).placementId = some pid := by
  refine ⟨?_, ?_, rfl⟩ <;> simp [imageRender]

/-- **C6**: rendering alters no text content — `Image.render` returns a
canvas with exactly the wrapped widget's text, `Container.render` returns
the wrapped widget's canvas itself — and the placement store changes only
at the placement of the rendered `Image` respectively at the placements
reached or hidden by the container's pass. -/
theorem render_preserves_content_and_frame (pid : Nat) (cst : ContainerState)
    (pst : Nat → Placement) (w : Widget) (size : List Nat) (focus : Bool) :
    ((imageRender pid w size focus pst).2).content = (w size focus).content ∧
    (containerRender cst pst w size focus).2 = w size focus ∧
    (∀ q, q ≠ pid → (imageRender pid w size focus pst).1 q = pst q) ∧
    (∀ q, q ∉ visiblePlacements cst.visibility (w size focus) ∪
        disappearedPlacements cst.lastVisible
          (visiblePlacements cst.visibility (w size focus)) →
      (containerRender cst pst w size focus).1.2 q = pst q) := by
  refine ⟨rfl, rfl, ?_, ?_⟩
  · intro q hq
    simp [imageRender, Function.update_noteq hq]
  · intro q hq
    rw [Finset.mem_union] at hq
    push_neg at hq
    exact renderImages_frame cst pst (w size focus) q hq.1 hq.2

/-- Witness for C6: placement 0 is neither the rendered `Image`'s placement
(1) nor reached or hidden by the container pass, so it is untouched. -/
theorem render_preserves_content_and_frame_witness :
    (imageRender 1 (fun _ _ => UCanvas.image 7 0 [] []) [] false defaultPst).1 0
      = defaultPst 0 ∧
    (containerRender ⟨Visibility.visible, ∅, false⟩ defaultPst
        (fun _ _ => UCanvas.image 7 0 [] []) [] false).1.2 0 = defaultPst 0 := by
  have h := render_preserves_content_and_frame 1 ⟨Visibility.visible, ∅, false⟩
    defaultPst (fun _ _ => UCanvas.image 7 0 [] []) [] false
  refine ⟨h.2.2.1 0 (by decide), h.2.2.2 0 ?_⟩
  show 0 ∉ visiblePlacements Visibility.visible (UCanvas.image 7 0 [] []) ∪
      disappearedPlacements ∅
        (visiblePlacements Visibility.visible (UCanvas.image 7 0 [] []))
  rw [visiblePlacements_visible, disappearedPlacements_eq_sdiff]
  simp [reachablePlacements]

/-- **C7** (as frozen, refuted): "each node of the tree is visited exactly
once" fails.  On a tree with an `Image.Canvas` nested inside another
`Image.Canvas` the loop performs 2 iterations while the tree has 3 nodes
— the traversal treats an `Image.Canvas` as terminal and never pushes its
children — and the inner placement 2 is never revealed. -/
theorem traversal_visits_every_node_counterexample :
    renderVisits [(0, 0, UCanvas.composite []
        [(0, 0, UCanvas.image 1 0 [] [(0, 0, UCanvas.image 2 0 [] [])])])] = 2 ∧
    csize (UCanvas.composite []
        [(0, 0, UCanvas.image 1 0 [] [(0, 0, UCanvas.image 2 0 [] [])])]) = 3 ∧
    renderVisits [(0, 0, UCanvas.composite []
        [(0, 0, UCanvas.image 1 0 [] [(0, 0, UCanvas.image 2 0 [] [])])])] ≠
      csize (UCanvas.composite []
        [(0, 0, UCanvas.image 1 0 [] [(0, 0, UCanvas.image 2 0 [] [])])]) ∧
    renderEvents Visibility.visible (UCanvas.composite []
        [(0, 0, UCanvas.image 1 0 [] [(0, 0, UCanvas.image 2 0 [] [])])])
      = [⟨1, 0, 0⟩] := by
  have h1 : renderVisits [(0, 0, UCanvas.composite []
      [(0, 0, UCanvas.image 1 0 [] [(0, 0, UCanvas.image 2 0 [] [])])])] = 2 := by
    rw [renderVisits_eq_stackExposed]
    simp [stackExposed, exposedCount, exposedCountList]
  have h2 : csize (UCanvas.composite []
      [(0, 0, UCanvas.image 1 0 [] [(0, 0, UCanvas.image 2 0 [] [])])]) = 3 := by
    simp [csize, csizeList]
  refine ⟨h1, h2, ?_, ?_⟩
  · rw [h1, h2]
    decide
  · rw [renderEvents_visible]
    simp [treeLeaves, treeLeavesList]

/-- **C7** (amended): the position-computation pass terminates for every
finite canvas tree; it pops one node per iteration and pushes only the
children of `CompositeCanvas` nodes that are not themselves `Image.Canvas`
leaves, so each node is visited at most once: the number of iterations is
exactly the number of nodes with no proper `Image.Canvas` ancestor
(`exposedCount`), which is at most the total node count. -/
theorem traversal_iterations_bounded (c : UCanvas) :
    renderVisits [(0, 0, c)] = exposedCount c ∧ exposedCount c ≤ csize c := by
  constructor
  · rw [renderVisits_eq_stackExposed]
    simp [stackExposed]
  · exact exposedCount_le_csize c

/-- **C8**: `Container.hide` sets every placement of
`_last_visible_placements` to `INVISIBLE`, changes no other placement and
leaves the container state — in particular the set itself — unchanged, so
a subsequent render of a visible container reveals every reached placement
again. -/
theorem hide_hides_and_preserves_set (cst : ContainerState)
    (pst : Nat → Placement) :
    (containerHide cst pst).1 = cst ∧
    (∀ p ∈ cst.lastVisible,
      ((containerHide cst pst).2 p).visibility = Visibility.invisible) ∧
    (∀ q, q ∉ cst.lastVisible → (containerHide cst pst).2 q = pst q) ∧
    (∀ c p, cst.visibility = Visibility.visible → p ∈ reachablePlacements c →
      ((renderImages cst (containerHide cst pst).2 c).2 p).visibility
        = Visibility.visible) := by
  refine ⟨rfl, ?_, ?_, ?_⟩
  · intro p hp
    show (hidePlacements cst.lastVisible pst p).visibility = _
    rw [hidePlacements_mem _ _ _ hp]
  · intro q hq
    exact hidePlacements_notMem _ _ _ hq
  · intro c p hvis hp
    refine renderImages_reached_visible cst _ c p ?_
    rw [hvis, visiblePlacements_visible]
    exact hp

/-- Witness for C8: with previous visible set `{5}`, `hide` sets placement
5 `INVISIBLE` and leaves placement 0 alone; rendering the visible container
on an `Image.Canvas` with placement 5 reveals it again. -/
theorem hide_hides_and_preserves_set_witness :
    (containerHide ⟨Visibility.visible, {5}, false⟩ defaultPst).1
      = ⟨Visibility.visible, {5}, false⟩ ∧
    ((containerHide ⟨Visibility.visible, {5}, false⟩ defaultPst).2 5).visibility
      = Visibility.invisible ∧
    (containerHide ⟨Visibility.visible, {5}, false⟩ defaultPst).2 0
      = defaultPst 0 ∧
    ((renderImages ⟨Visibility.visible, {5}, false⟩
        (containerHide ⟨Visibility.visible, {5}, false⟩ defaultPst).2
        (UCanvas.image 5 0 [] [])).2 5).visibility = Visibility.visible := by
  have h := hide_hides_and_preserves_set ⟨Visibility.visible, {5}, false⟩ defaultPst
  refine ⟨h.1, h.2.1 5 (by decide), h.2.2.1 0 (by decide),
    h.2.2.2 (UCanvas.image 5 0 [] []) 5 rfl ?_⟩
  simp [reachablePlacements]

/-- **C9**: rendering the same container twice with an unchanged widget
tree and unchanged visibility yields the same visible-placement set, and on
the second render the set commanded invisible is empty. -/
theorem render_twice_idempotent (cst : ContainerState) (pst : Nat → Placement)
    (w : Widget) (size : List Nat) (focus : Bool) :
    (containerRender (containerRender cst pst w size focus).1.1
        (containerRender cst pst w size focus).1.2 w size focus).1.1.lastVisible
      = (containerRender cst pst w size focus).1.1.lastVisible ∧
    disappearedPlacements (containerRender cst pst w size focus).1.1.lastVisible
        (visiblePlacements (containerRender cst pst w size focus).1.1.visibility
          (w size focus))
      = ∅ := by
  constructor
  · rfl
  · rw [disappearedPlacements_eq_sdiff]
    show visiblePlacements cst.visibility (w size focus) \
        visiblePlacements cst.visibility (w size focus) = ∅
    exact Finset.sdiff_self _

/-- **C10**: assigning `Container.visibility` its current value changes
nothing (no store, no `_invalidate`); assigning a different value stores it
and invalidates; placements are untouched either way — visibility acts on
them only through a later render. -/
theorem visibility_setter_semantics (cst : ContainerState)
    (pst : Nat → Placement) (v : Visibility) :
    (v = cst.visibility → setVisibility cst pst v = (cst, pst)) ∧
    (v ≠ cst.visibility →
      (setVisibility cst pst v).1.visibility = v ∧
      (setVisibility cst pst v).1.invalidated = true ∧
      (setVisibility cst pst v).1.lastVisible = cst.lastVisible ∧
      (setVisibility cst pst v).2 = pst) := by
  constructor
  · intro h
    simp [setVisibility, h]
  · intro h
    simp [setVisibility, h]

/-- Witness for C10: re-assigning `VISIBLE` to a visible container is a
no-op; assigning `INVISIBLE` stores it and sets the invalidated flag. -/
theorem visibility_setter_semantics_witness :
    setVisibility ⟨Visibility.visible, ∅, false⟩ defaultPst Visibility.visible
      = (⟨Visibility.visible, ∅, false⟩, defaultPst) ∧
    (setVisibility ⟨Visibility.visible, ∅, false⟩ defaultPst
        Visibility.invisible).1.invalidated = true ∧
    (setVisibility ⟨Visibility.visible, ∅, false⟩ defaultPst
        Visibility.invisible).1.visibility = Visibility.invisible :=
  ⟨(visibility_setter_semantics ⟨Visibility.visible, ∅, false⟩ defaultPst
      Visibility.visible).1 rfl,
   ((visibility_setter_semantics ⟨Visibility.visible, ∅, false⟩ defaultPst
      Visibility.invisible).2 (by decide)).2.1,
   ((visibility_setter_semantics ⟨Visibility.visible, ∅, false⟩ defaultPst
      Visibility.invisible).2 (by decide)).1⟩
